import Mathlib

/-!
# Verification of the pairwise KL-divergence dispatch engine

Shallow embedding of `torch/distributions/kl.py`: the registration API
(`register_kl`), the specificity order (`_Match.__le__`), the resolver
(`_dispatch_kl`) and the memoizing dispatch facade (`kl_divergence`).

Python types are modelled as opaque tokens of a type `Ty` together with a
boolean subtype predicate `sub` (the `issubclass` oracle).  Handlers are
opaque tokens of a type `H` compared by identity (`is` in the source).
Python dicts (`_KL_REGISTRY`, `_KL_MEMOIZE`) are modelled as
insertion-ordered association lists, matching CPython's dict iteration
order, which the resolver's `for super_p, super_q in _KL_REGISTRY` scan
observes.
-/

namespace KL

/-- Python exceptions relevant to the engine.  `notImplementedError` carries
the argument tuple of the raised exception; the source's bare
`raise NotImplementedError` raises it with no arguments, hence `[]`. -/
inductive PyExc (Ty : Type) where
  | typeError
  | typeErrorNotAClass
  | notImplementedError (args : List Ty)
deriving DecidableEq

/-- Python dict lookup `d[k]` over an insertion-ordered association list. -/
def dictGet? {κ ν : Type} [DecidableEq κ] : List (κ × ν) → κ → Option ν
  | [], _ => none
  | (k', v) :: rest, k => if k = k' then some v else dictGet? rest k

/-- Python dict assignment `d[k] = v`: overwrite in place if the key exists
(keeping its position), otherwise append at the end. -/
def dictInsert {κ ν : Type} [DecidableEq κ] : List (κ × ν) → κ → ν → List (κ × ν)
  | [], k, v => [(k, v)]
  | (k', v') :: rest, k, v =>
      if k = k' then (k, v) :: rest else (k', v') :: dictInsert rest k v

/-- `_Match.__le__`: walk `zip(self.types, other.types)`; at each position,
`if not issubclass(x, y): return False`; `if x is not y: break`; after the
loop `return True`. -/
def matchLE {Ty : Type} [DecidableEq Ty] (sub : Ty → Ty → Bool) :
    List Ty → List Ty → Bool
  | x :: xs, y :: ys =>
      if sub x y then (if x = y then matchLE sub xs ys else true) else false
  | _, _ => true

/-- `__le__` specialised to the two-element `_Match` tuples built by
`_dispatch_kl`. -/
def pairLE {Ty : Type} [DecidableEq Ty] (sub : Ty → Ty → Bool)
    (m n : Ty × Ty) : Bool :=
  matchLE sub [m.1, m.2] [n.1, n.2]

/-- The strict order `functools.total_ordering` derives from `__le__` and
`__eq__`: `a < b` iff `a <= b and a != b`. -/
def pairLT {Ty : Type} [DecidableEq Ty] (sub : Ty → Ty → Bool)
    (m n : Ty × Ty) : Bool :=
  pairLE sub m n && !(decide (m = n))

/-- Python's `min` over a non-empty sequence: keep the first element as the
running best and replace it whenever a later item compares `<` to it. -/
def pyMin {α : Type} (lt : α → α → Bool) : α → List α → α
  | best, [] => best
  | best, x :: xs => pyMin lt (if lt x best then x else best) xs

/-- The data interpolated into the ambiguity `RuntimeWarning` message:
`'Ambiguous kl_divergence({}, {}). Please register_kl({}, {})'` formatted
with `type_p`, `type_q`, `left_p`, `right_q`. -/
structure Warn (Ty : Type) where
  query_p : Ty
  query_q : Ty
  left_p : Ty
  right_q : Ty
deriving DecidableEq

/-- The candidate scan of `_dispatch_kl`: all registered key pairs
`(super_p, super_q)` with `issubclass(type_p, super_p)` and
`issubclass(type_q, super_q)`, in registry (insertion) order. -/
def candidates {Ty H : Type} [DecidableEq Ty] (sub : Ty → Ty → Bool)
    (reg : List ((Ty × Ty) × H)) (tp tq : Ty) : List (Ty × Ty) :=
  (reg.map Prod.fst).filter (fun m => sub tp m.1 && sub tq m.2)

/-- `reversed(m)` on a two-element tuple. -/
def swapPair {Ty : Type} (m : Ty × Ty) : Ty × Ty := (m.2, m.1)

/-- `_dispatch_kl(type_p, type_q)`: returns the resolved handler (`none`
models the `NotImplemented` sentinel) together with the ambiguity warning
emitted, if any. -/
def dispatch_kl {Ty H : Type} [DecidableEq Ty] [DecidableEq H]
    (sub : Ty → Ty → Bool) (reg : List ((Ty × Ty) × H)) (tp tq : Ty) :
    Option H × Option (Warn Ty) :=
  match candidates sub reg tp tq with
  | [] => (none, none)
  | m :: ms =>
    let left := pyMin (pairLT sub) m ms
    let rightSwap := pyMin (pairLT sub) (swapPair m) (ms.map swapPair)
    let leftFun := dictGet? reg left
    let rightFun := dictGet? reg (rightSwap.2, rightSwap.1)
    (leftFun,
      if leftFun ≠ rightFun then some ⟨tp, tq, left.1, rightSwap.1⟩ else none)

/-- `issubclass(x, Distribution)` for an argument `x` with
`isinstance(x, type) = isType`: raises `TypeError` when `x` is not a class,
otherwise answers the subclass test. -/
def py_issubclass (Ty : Type) (isType isSub : Bool) : Except (PyExc Ty) Bool :=
  if isType then .ok isSub else .error .typeErrorNotAClass

/-- The guard expression of `register_kl`:
`not isinstance(t, type) and issubclass(t, Distribution)`, evaluated with
Python's short-circuiting `and`. -/
def register_typecheck (Ty : Type) (isType isSub : Bool) :
    Except (PyExc Ty) Bool :=
  if !isType then py_issubclass Ty isType isSub else .ok false

/-- The process-wide engine state: `_KL_REGISTRY` and `_KL_MEMOIZE`.  A
memoized value of `none` models a stored `NotImplemented` sentinel. -/
structure KLState (Ty H : Type) where
  registry : List ((Ty × Ty) × H)
  memoize : List ((Ty × Ty) × Option H)
deriving DecidableEq

/-- `register_kl(type_p, type_q)` applied to a handler `fn`, with both
arguments being actual class objects (`isinstance(_, type)` is `true`);
`isDist` answers `issubclass(_, Distribution)`.  Stores the rule under the
exact pair and clears the memoization cache. -/
def register_kl {Ty H : Type} [DecidableEq Ty] (isDist : Ty → Bool)
    (type_p type_q : Ty) (fn : H) (s : KLState Ty H) :
    Except (PyExc Ty) (KLState Ty H) :=
  match register_typecheck Ty true (isDist type_p) with
  | .error e => .error e
  | .ok true => .error .typeError
  | .ok false =>
    match register_typecheck Ty true (isDist type_q) with
    | .error e => .error e
    | .ok true => .error .typeError
    | .ok false => .ok ⟨dictInsert s.registry (type_p, type_q) fn, []⟩

/-- `if fun is NotImplemented: raise NotImplementedError` (with no
arguments), else the resolved handler. -/
def resultOf (Ty : Type) {H : Type} : Option H → Except (PyExc Ty) H
  | none => .error (.notImplementedError [])
  | some h => .ok h

/-- `kl_divergence(p, q)` at the dispatch level: consult the memo under the
exact runtime type pair, fall back to `_dispatch_kl` and memoize its result
(including the `NotImplemented` sentinel).  Returns the outcome, the warning
emitted (if any) and the updated engine state. -/
def kl_divergence {Ty H : Type} [DecidableEq Ty] [DecidableEq H]
    (sub : Ty → Ty → Bool) (s : KLState Ty H) (tp tq : Ty) :
    Except (PyExc Ty) H × Option (Warn Ty) × KLState Ty H :=
  match dictGet? s.memoize (tp, tq) with
  | some fn => (resultOf Ty fn, none, s)
  | none =>
    let r := dispatch_kl sub s.registry tp tq
    (resultOf Ty r.1, r.2, ⟨s.registry, dictInsert s.memoize (tp, tq) r.1⟩)

/-- The rule key `min(_Match(*m) for m in matches).types` selected under the
left-to-right specificity order (`none` when there are no candidates). -/
def leftChoice {Ty H : Type} [DecidableEq Ty] (sub : Ty → Ty → Bool)
    (reg : List ((Ty × Ty) × H)) (tp tq : Ty) : Option (Ty × Ty) :=
  match candidates sub reg tp tq with
  | [] => none
  | m :: ms => some (pyMin (pairLT sub) m ms)

/-- The rule key selected under the reversed (right-to-left) specificity
order, read back in original argument order: from
`right_q, right_p = min(_Match(*reversed(m)) for m in matches).types`. -/
def rightChoice {Ty H : Type} [DecidableEq Ty] (sub : Ty → Ty → Bool)
    (reg : List ((Ty × Ty) × H)) (tp tq : Ty) : Option (Ty × Ty) :=
  match candidates sub reg tp tq with
  | [] => none
  | m :: ms => some (swapPair (pyMin (pairLT sub) (swapPair m) (ms.map swapPair)))

/-- The memoization entry for the queried pair, when present, agrees with
what the resolver computes from the current registry.  This is the cache
consistency the engine maintains (the cache is cleared on every
registration and only ever filled with resolver output). -/
def MemoOkAt {Ty H : Type} [DecidableEq Ty] [DecidableEq H]
    (sub : Ty → Ty → Bool) (s : KLState Ty H) (tp tq : Ty) : Prop :=
  dictGet? s.memoize (tp, tq) = none ∨
  dictGet? s.memoize (tp, tq) = some (dispatch_kl sub s.registry tp tq).1

/-- A small concrete single-inheritance hierarchy used to exercise the
engine: `derA <: baseA` and `derB <: baseB`. -/
inductive TTy where
  | baseA
  | derA
  | baseB
  | derB
deriving DecidableEq, Fintype

/-- `issubclass` for the concrete hierarchy: reflexive, plus the two
derived-to-base edges. -/
def subT : TTy → TTy → Bool
  | .derA, .baseA => true
  | .derB, .baseB => true
  | a, b => a == b

/-- In the concrete hierarchy every token is a Distribution subclass. -/
def isDistT : TTy → Bool := fun _ => true

/-! ## Association-list (dict) lemmas -/

theorem dictGet?_insert_self {κ ν : Type} [DecidableEq κ]
    (l : List (κ × ν)) (k : κ) (v : ν) :
    dictGet? (dictInsert l k v) k = some v := by
  induction l with
  | nil => simp [dictInsert, dictGet?]
  | cons a rest ih =>
    obtain ⟨k', v'⟩ := a
    by_cases h : k = k'
    · simp [dictInsert, dictGet?, h]
    · simp [dictInsert, dictGet?, h, Ne.symm h, ih]

theorem dictGet?_insert_ne {κ ν : Type} [DecidableEq κ]
    (l : List (κ × ν)) (k k' : κ) (v : ν) (h : k' ≠ k) :
    dictGet? (dictInsert l k v) k' = dictGet? l k' := by
  induction l with
  | nil => simp [dictInsert, dictGet?, h]
  | cons a rest ih =>
    obtain ⟨k0, v0⟩ := a
    by_cases h0 : k = k0
    · subst h0
      simp [dictInsert, dictGet?, h]
    · by_cases h1 : k' = k0
      · simp [dictInsert, dictGet?, h0, h1]
      · simp [dictInsert, dictGet?, h0, h1, ih]

theorem mem_keys_of_dictGet? {κ ν : Type} [DecidableEq κ]
    (l : List (κ × ν)) (k : κ) (v : ν) (h : dictGet? l k = some v) :
    k ∈ l.map Prod.fst := by
  induction l with
  | nil => simp [dictGet?] at h
  | cons a rest ih =>
    obtain ⟨k', v'⟩ := a
    by_cases h0 : k = k'
    · simp [h0]
    · rw [dictGet?, if_neg h0] at h
      simpa using Or.inr (ih h)

theorem dictInsert_of_not_mem {κ ν : Type} [DecidableEq κ]
    (l : List (κ × ν)) (k : κ) (v : ν) (h : k ∉ l.map Prod.fst) :
    dictInsert l k v = l ++ [(k, v)] := by
  induction l with
  | nil => simp [dictInsert]
  | cons a rest ih =>
    obtain ⟨k', v'⟩ := a
    simp only [List.map_cons, List.mem_cons] at h
    push_neg at h
    simp [dictInsert, h.1, ih h.2]

theorem keys_dictInsert_of_mem {κ ν : Type} [DecidableEq κ]
    (l : List (κ × ν)) (k : κ) (v : ν) (h : k ∈ l.map Prod.fst) :
    (dictInsert l k v).map Prod.fst = l.map Prod.fst := by
  induction l with
  | nil => simp at h
  | cons a rest ih =>
    obtain ⟨k', v'⟩ := a
    by_cases h0 : k = k'
    · simp [dictInsert, h0]
    · simp only [List.map_cons, List.mem_cons] at h
      rcases h with h | h
      · exact absurd h h0
      · simp [dictInsert, h0, ih h]

theorem keys_dictInsert_nodup {κ ν : Type} [DecidableEq κ]
    (l : List (κ × ν)) (k : κ) (v : ν) (h : (l.map Prod.fst).Nodup) :
    ((dictInsert l k v).map Prod.fst).Nodup := by
  by_cases hm : k ∈ l.map Prod.fst
  · rw [keys_dictInsert_of_mem l k v hm]
    exact h
  · rw [dictInsert_of_not_mem l k v hm]
    simp only [List.map_append, List.map_cons, List.map_nil]
    rw [List.nodup_append]
    exact ⟨h, List.nodup_singleton _, by simpa using fun hx => hm hx⟩

theorem dictGet?_append_singleton {κ ν : Type} [DecidableEq κ]
    (l : List (κ × ν)) (k : κ) (v : ν) (h : k ∉ l.map Prod.fst) :
    dictGet? (l ++ [(k, v)]) k = some v := by
  induction l with
  | nil => simp [dictGet?]
  | cons a rest ih =>
    obtain ⟨k', v'⟩ := a
    simp only [List.map_cons, List.mem_cons] at h
    push_neg at h
    simp [dictGet?, h.1, ih h.2]

/-! ## Specificity order and `min` lemmas -/

theorem matchLE_of_subs {Ty : Type} [DecidableEq Ty] (sub : Ty → Ty → Bool)
    (a b c d : Ty) (h1 : sub a c = true) (h2 : sub b d = true) :
    matchLE sub [a, b] [c, d] = true := by
  by_cases hac : a = c
  · subst hac
    by_cases hbd : b = d
    · subst hbd
      simp [matchLE, h1, h2]
    · simp [matchLE, h1, h2, hbd]
  · simp [matchLE, h1, hac]

theorem pairLT_of_candidate {Ty : Type} [DecidableEq Ty] (sub : Ty → Ty → Bool)
    (tp tq : Ty) (z : Ty × Ty)
    (h1 : sub tp z.1 = true) (h2 : sub tq z.2 = true) (hne : (tp, tq) ≠ z) :
    pairLT sub (tp, tq) z = true := by
  have h := matchLE_of_subs sub tp tq z.1 z.2 h1 h2
  simp [pairLT, pairLE, h, hne]

theorem pairLT_candidate_exact_false {Ty : Type} [DecidableEq Ty]
    (sub : Ty → Ty → Bool)
    (hanti : ∀ a b, sub a b = true → sub b a = true → a = b)
    (tp tq : Ty) (z : Ty × Ty)
    (h1 : sub tp z.1 = true) (h2 : sub tq z.2 = true) :
    pairLT sub z (tp, tq) = false := by
  by_cases hz : z = (tp, tq)
  · simp [pairLT, hz]
  · have hfalse : matchLE sub [z.1, z.2] [tp, tq] = false := by
      by_cases ha : sub z.1 tp = true
      · have e1 : z.1 = tp := hanti _ _ ha h1
        by_cases hb : sub z.2 tq = true
        · have e2 : z.2 = tq := hanti _ _ hb h2
          exact absurd (Prod.ext e1 e2) hz
        · have hb' : sub z.2 tq = false := by
            simpa using hb
          simp [matchLE, ha, e1, hb']
      · have ha' : sub z.1 tp = false := by
          simpa using ha
        simp [matchLE, ha']
    simp [pairLT, pairLE, hfalse]

theorem pyMin_eq_of {α : Type} (lt : α → α → Bool) (x : α) (l : List α) :
    ∀ b : α,
      (x = b ∨ x ∈ l) →
      (∀ z, (z = b ∨ z ∈ l) → z ≠ x → lt x z = true) →
      (∀ z, (z = b ∨ z ∈ l) → lt z x = false) →
      pyMin lt b l = x := by
  induction l with
  | nil =>
    intro b hmem _ _
    rcases hmem with h | h
    · simpa [pyMin] using h.symm
    · simp at h
  | cons a l ih =>
    intro b hmem hbelow hnone
    show pyMin lt (if lt a b then a else b) l = x
    have hmem' : x = b ∨ x = a ∨ x ∈ l := by
      rcases hmem with h | h
      · exact Or.inl h
      · rcases List.mem_cons.mp h with h | h
        · exact Or.inr (Or.inl h)
        · exact Or.inr (Or.inr h)
    have hshift : ∀ z : α, (z = a ∨ z ∈ l) ∨ z = b → z = b ∨ z ∈ a :: l := by
      intro z hz
      rcases hz with hz | hz
      · rcases hz with hz | hz
        · exact Or.inr (by rw [hz]; exact List.mem_cons_self a l)
        · exact Or.inr (List.mem_cons_of_mem a hz)
      · exact Or.inl hz
    by_cases hab : lt a b = true
    · rw [if_pos hab]
      refine ih a ?_ ?_ ?_
      · rcases hmem' with hb | ha | hl
        · exfalso
          have h1 : lt a x = false := hnone a (Or.inr (List.mem_cons_self a l))
          rw [hb] at h1
          rw [hab] at h1
          simp at h1
        · exact Or.inl ha
        · exact Or.inr hl
      · intro z hz hzx
        exact hbelow z (hshift z (Or.inl hz)) hzx
      · intro z hz
        exact hnone z (hshift z (Or.inl hz))
    · rw [if_neg hab]
      refine ih b ?_ ?_ ?_
      · rcases hmem' with hb | ha | hl
        · exact Or.inl hb
        · by_cases hbx : b = x
          · exact Or.inl hbx.symm
          · have hlx : lt x b = true := hbelow b (Or.inl rfl) hbx
            rw [ha] at hlx
            exact absurd hlx hab
        · exact Or.inr hl
      · intro z hz hzx
        rcases hz with hz | hz
        · exact hbelow z (Or.inl hz) hzx
        · exact hbelow z (hshift z (Or.inl (Or.inr hz))) hzx
      · intro z hz
        rcases hz with hz | hz
        · exact hnone z (Or.inl hz)
        · exact hnone z (hshift z (Or.inl (Or.inr hz)))

/-! ## Resolver lemmas -/

theorem mem_candidates {Ty H : Type} [DecidableEq Ty] (sub : Ty → Ty → Bool)
    (reg : List ((Ty × Ty) × H)) (tp tq : Ty) (z : Ty × Ty)
    (h : z ∈ candidates sub reg tp tq) :
    sub tp z.1 = true ∧ sub tq z.2 = true := by
  have := List.mem_filter.mp h
  simpa [Bool.and_eq_true] using this.2

/-- When the exact query pair is itself a registry key, the resolver picks it
under both scan orders and returns its handler without warning. -/
theorem dispatch_exact_helper {Ty H : Type} [DecidableEq Ty] [DecidableEq H]
    (sub : Ty → Ty → Bool)
    (hrefl : ∀ t, sub t t = true)
    (hanti : ∀ a b, sub a b = true → sub b a = true → a = b)
    (reg : List ((Ty × Ty) × H)) (tp tq : Ty) (fn : H)
    (hget : dictGet? reg (tp, tq) = some fn) :
    dispatch_kl sub reg tp tq = (some fn, none) := by
  have hkey : (tp, tq) ∈ reg.map Prod.fst :=
    mem_keys_of_dictGet? reg (tp, tq) fn hget
  have hmemc : (tp, tq) ∈ candidates sub reg tp tq := by
    exact List.mem_filter.mpr ⟨hkey, by simp [hrefl]⟩
  cases hcand : candidates sub reg tp tq with
  | nil =>
    rw [hcand] at hmemc
    simp at hmemc
  | cons m ms =>
    rw [hcand] at hmemc
    have hcands : ∀ z : Ty × Ty, (z = m ∨ z ∈ ms) →
        sub tp z.1 = true ∧ sub tq z.2 = true := by
      intro z hz
      refine mem_candidates sub reg tp tq z ?_
      rw [hcand]
      rcases hz with h | h
      · rw [h]
        exact List.mem_cons_self m ms
      · exact List.mem_cons_of_mem m h
    have hleft : pyMin (pairLT sub) m ms = (tp, tq) := by
      refine pyMin_eq_of (pairLT sub) (tp, tq) ms m (List.mem_cons.mp hmemc) ?_ ?_
      · intro z hz hzx
        obtain ⟨h1, h2⟩ := hcands z hz
        exact pairLT_of_candidate sub tp tq z h1 h2 (Ne.symm hzx)
      · intro z hz
        obtain ⟨h1, h2⟩ := hcands z hz
        exact pairLT_candidate_exact_false sub hanti tp tq z h1 h2
    have hswaps : ∀ z : Ty × Ty, (z = swapPair m ∨ z ∈ ms.map swapPair) →
        sub tq z.1 = true ∧ sub tp z.2 = true := by
      intro z hz
      rcases hz with h | h
      · obtain ⟨h1, h2⟩ := hcands m (Or.inl rfl)
        rw [h]
        exact ⟨h2, h1⟩
      · obtain ⟨w, hw, hws⟩ := List.mem_map.mp h
        obtain ⟨h1, h2⟩ := hcands w (Or.inr hw)
        rw [← hws]
        exact ⟨h2, h1⟩
    have hright : pyMin (pairLT sub) (swapPair m) (ms.map swapPair) = (tq, tp) := by
      refine pyMin_eq_of (pairLT sub) (tq, tp) (ms.map swapPair) (swapPair m) ?_ ?_ ?_
      · rcases List.mem_cons.mp hmemc with h | h
        · left
          rw [← h]
          rfl
        · right
          exact List.mem_map.mpr ⟨(tp, tq), h, rfl⟩
      · intro z hz hzx
        obtain ⟨h1, h2⟩ := hswaps z hz
        exact pairLT_of_candidate sub tq tp z h1 h2 (Ne.symm hzx)
      · intro z hz
        obtain ⟨h1, h2⟩ := hswaps z hz
        exact pairLT_candidate_exact_false sub hanti tq tp z h1 h2
    simp [dispatch_kl, hcand, hleft, hright, hget]

/-- Appending a fresh rule extends the candidate scan at the end. -/
theorem candidates_append {Ty H : Type} [DecidableEq Ty] (sub : Ty → Ty → Bool)
    (l : List ((Ty × Ty) × H)) (k : Ty × Ty) (v : H) (tp tq : Ty) :
    candidates sub (l ++ [(k, v)]) tp tq =
      candidates sub l tp tq ++
        (if sub tp k.1 && sub tq k.2 then [k] else []) := by
  by_cases h1 : sub tp k.1 = true
  · by_cases h2 : sub tq k.2 = true
    · simp [candidates, List.filter_append, h1, h2]
    · simp [candidates, List.filter_append, h1, h2]
  · simp [candidates, List.filter_append, h1]

/-- Cache-hit branch of the facade. -/
theorem kl_divergence_hit {Ty H : Type} [DecidableEq Ty] [DecidableEq H]
    (sub : Ty → Ty → Bool) (s : KLState Ty H) (tp tq : Ty) (fn : Option H)
    (h : dictGet? s.memoize (tp, tq) = some fn) :
    kl_divergence sub s tp tq = (resultOf Ty fn, none, s) := by
  simp [kl_divergence, h]

/-- Cache-miss branch of the facade. -/
theorem kl_divergence_miss {Ty H : Type} [DecidableEq Ty] [DecidableEq H]
    (sub : Ty → Ty → Bool) (s : KLState Ty H) (tp tq : Ty)
    (h : dictGet? s.memoize (tp, tq) = none) :
    kl_divergence sub s tp tq =
      (resultOf Ty (dispatch_kl sub s.registry tp tq).1,
       (dispatch_kl sub s.registry tp tq).2,
       ⟨s.registry,
        dictInsert s.memoize (tp, tq) (dispatch_kl sub s.registry tp tq).1⟩) := by
  simp [kl_divergence, h]

/-- `register_kl` never raises for class arguments: the guard
`not isinstance(t, type) and issubclass(t, Distribution)` short-circuits to
`False` whenever the argument is a class, whatever `issubclass` would say. -/
theorem register_kl_eq {Ty H : Type} [DecidableEq Ty] (isDist : Ty → Bool)
    (type_p type_q : Ty) (fn : H) (s : KLState Ty H) :
    register_kl isDist type_p type_q fn s =
      .ok ⟨dictInsert s.registry (type_p, type_q) fn, []⟩ := rfl

/-! ## Claim theorems -/

/-- C2: the specificity comparison `m ≤ n` of `_Match.__le__` walks the
positions in order; it is false as soon as a position fails the subtype
test, true as soon as a position holds a strict subtype (later positions
ignored), continues past exactly-equal positions, and is true when the
positions are exhausted without a strict divergence. -/
theorem C2_specificity_order {Ty : Type} [DecidableEq Ty]
    (sub : Ty → Ty → Bool) :
    (∀ (x y : Ty) (xs ys : List Ty), sub x y = false →
        matchLE sub (x :: xs) (y :: ys) = false) ∧
    (∀ (x y : Ty) (xs ys : List Ty), sub x y = true → x ≠ y →
        matchLE sub (x :: xs) (y :: ys) = true) ∧
    (∀ (x : Ty) (xs ys : List Ty), sub x x = true →
        matchLE sub (x :: xs) (x :: ys) = matchLE sub xs ys) ∧
    (∀ ys : List Ty, matchLE sub [] ys = true) ∧
    (∀ xs : List Ty, matchLE sub xs [] = true) := by
  refine ⟨?_, ?_, ?_, ?_, ?_⟩
  · intro x y xs ys h
    simp [matchLE, h]
  · intro x y xs ys h hne
    simp [matchLE, h, hne]
  · intro x xs ys h
    simp [matchLE, h]
  · intro ys
    cases ys <;> simp [matchLE]
  · intro xs
    cases xs <;> simp [matchLE]

theorem C2_witness :
    matchLE subT [TTy.baseA, TTy.baseA] [TTy.derA, TTy.baseA] = false ∧
    matchLE subT [TTy.derA, TTy.baseB] [TTy.baseA, TTy.derB] = true ∧
    matchLE subT [TTy.baseA, TTy.derB] [TTy.baseA, TTy.baseB] =
      matchLE subT [TTy.derB] [TTy.baseB] ∧
    matchLE subT [] [TTy.baseA] = true :=
  ⟨(C2_specificity_order subT).1 TTy.baseA TTy.derA [TTy.baseA] [TTy.baseA]
      (by decide),
   (C2_specificity_order subT).2.1 TTy.derA TTy.baseA [TTy.baseB] [TTy.derB]
      (by decide) (by decide),
   (C2_specificity_order subT).2.2.1 TTy.baseA [TTy.derB] [TTy.baseB]
      (by decide),
   (C2_specificity_order subT).2.2.2.1 [TTy.baseA]⟩

/-- C9: when the exact query pair is itself registered, resolution returns
exactly its handler and emits no ambiguity warning: the exact pair is
minimal under both the left-to-right and the reversed specificity order, so
the two selections agree. -/
theorem C9_exact_registration_wins {Ty H : Type} [DecidableEq Ty]
    [DecidableEq H] (sub : Ty → Ty → Bool)
    (hrefl : ∀ t, sub t t = true)
    (hanti : ∀ a b, sub a b = true → sub b a = true → a = b)
    (reg : List ((Ty × Ty) × H)) (tp tq : Ty) (fn : H)
    (hget : dictGet? reg (tp, tq) = some fn) :
    dispatch_kl sub reg tp tq = (some fn, none) :=
  dispatch_exact_helper sub hrefl hanti reg tp tq fn hget

theorem C9_witness :
    dispatch_kl subT [((TTy.derA, TTy.derA), 5), ((TTy.baseA, TTy.baseA), 3)]
        TTy.derA TTy.derA = (some 5, none) :=
  C9_exact_registration_wins subT (by decide) (by decide) _ TTy.derA TTy.derA 5
    (by decide)

/-- C3: for every registry containing a rule for `(Base, Base)` and a rule
for `(Derived, Base)` — with `Derived` a strict subtype of `Base`, and
`issubclass` reflexive and antisymmetric as on a real class hierarchy —
resolving the query `(Derived, Base)` returns the handler registered for
`(Derived, Base)`, with no ambiguity warning, and never the `(Base, Base)`
handler: the query pair is itself a registered key and is strictly more
specific than every other candidate under both scan orders. -/
theorem C3_more_specific_wins {Ty H : Type} [DecidableEq Ty] [DecidableEq H]
    (sub : Ty → Ty → Bool)
    (hrefl : ∀ t, sub t t = true)
    (hanti : ∀ a b, sub a b = true → sub b a = true → a = b)
    (reg : List ((Ty × Ty) × H)) (B D : Ty) (f g : H)
    (hDB : sub D B = true) (hBD : sub B D = false)
    (hgetD : dictGet? reg (D, B) = some f)
    (hgetB : dictGet? reg (B, B) = some g) :
    dispatch_kl sub reg D B = (some f, none) :=
  dispatch_exact_helper sub hrefl hanti reg D B f hgetD

theorem C3_witness :
    dispatch_kl subT
        [((TTy.baseA, TTy.baseA), 2), ((TTy.derA, TTy.baseA), 1),
         ((TTy.baseA, TTy.derB), 3)]
        TTy.derA TTy.baseA = (some 1, none) :=
  C3_more_specific_wins subT (by decide) (by decide)
    [((TTy.baseA, TTy.baseA), 2), ((TTy.derA, TTy.baseA), 1),
     ((TTy.baseA, TTy.derB), 3)]
    TTy.baseA TTy.derA 1 2
    (by decide) (by decide) (by decide) (by decide)

/-- C1: on a query with a non-empty candidate set, if the handler found
under the left-to-right specificity order differs from the one found under
the reversed order, resolution emits exactly one warning — naming the query
types and suggesting `(leftP, rightQ)` as the disambiguating registration —
and still returns the left-priority handler; if the two selections agree no
warning is emitted and that handler is returned. -/
theorem C1_ambiguity_warning {Ty H : Type} [DecidableEq Ty] [DecidableEq H]
    (sub : Ty → Ty → Bool) (reg : List ((Ty × Ty) × H))
    (tp tq lp lq rp rq : Ty)
    (hl : leftChoice sub reg tp tq = some (lp, lq))
    (hr : rightChoice sub reg tp tq = some (rp, rq)) :
    (dictGet? reg (lp, lq) ≠ dictGet? reg (rp, rq) →
        dispatch_kl sub reg tp tq =
          (dictGet? reg (lp, lq), some ⟨tp, tq, lp, rq⟩)) ∧
    (dictGet? reg (lp, lq) = dictGet? reg (rp, rq) →
        dispatch_kl sub reg tp tq = (dictGet? reg (lp, lq), none)) := by
  cases hcand : candidates sub reg tp tq with
  | nil =>
    rw [leftChoice, hcand] at hl
    simp at hl
  | cons m ms =>
    rw [leftChoice, hcand] at hl
    rw [rightChoice, hcand] at hr
    have hl' : pyMin (pairLT sub) m ms = (lp, lq) := by
      simpa using hl
    have hr' : swapPair (pyMin (pairLT sub) (swapPair m) (ms.map swapPair)) =
        (rp, rq) := by
      simpa using hr
    have hr2 : pyMin (pairLT sub) (swapPair m) (ms.map swapPair) = (rq, rp) := by
      have := congrArg swapPair hr'
      simpa [swapPair] using this
    constructor
    · intro hne
      simp [dispatch_kl, hcand, hl', hr2, hne]
    · intro heq
      simp [dispatch_kl, hcand, hl', hr2, heq]

theorem C1_witness :
    leftChoice subT [((TTy.baseA, TTy.derB), 1), ((TTy.derA, TTy.baseB), 2)]
        TTy.derA TTy.derB = some (TTy.derA, TTy.baseB) ∧
    rightChoice subT [((TTy.baseA, TTy.derB), 1), ((TTy.derA, TTy.baseB), 2)]
        TTy.derA TTy.derB = some (TTy.baseA, TTy.derB) ∧
    dispatch_kl subT [((TTy.baseA, TTy.derB), 1), ((TTy.derA, TTy.baseB), 2)]
        TTy.derA TTy.derB =
      (some 2, some ⟨TTy.derA, TTy.derB, TTy.derA, TTy.derB⟩) := by
  refine ⟨by decide, by decide, ?_⟩
  have h := (C1_ambiguity_warning subT
      [((TTy.baseA, TTy.derB), 1), ((TTy.derA, TTy.baseB), 2)]
      TTy.derA TTy.derB TTy.derA TTy.baseB TTy.baseA TTy.derB
      (by decide) (by decide)).1 (by decide)
  exact h.trans (by decide)

/-- C4 counterexample: with an empty registry (so the candidate set of any
query is empty), `kl_divergence` raises `NotImplementedError` with an empty
argument tuple — `raise NotImplementedError` with no message — so the
exception does not name the query types, contrary to the claim. -/
theorem C4_counterexample :
    (kl_divergence subT (⟨[], []⟩ : KLState TTy Nat) TTy.baseA TTy.baseB).1 =
      Except.error (PyExc.notImplementedError []) ∧
    TTy.baseA ∉ ([] : List TTy) ∧ TTy.baseB ∉ ([] : List TTy) :=
  ⟨rfl, by simp, by simp⟩

/-- C4 (amended): on a query whose runtime type pair has an empty candidate
set (and whose memo entry, if present, reflects that), the facade fails
with a bare `NotImplementedError` — carrying no arguments, hence not naming
the query types — and never substitutes a default handler. -/
theorem C4_unresolved_raises {Ty H : Type} [DecidableEq Ty] [DecidableEq H]
    (sub : Ty → Ty → Bool) (s : KLState Ty H) (tp tq : Ty)
    (hok : MemoOkAt sub s tp tq)
    (hempty : candidates sub s.registry tp tq = []) :
    (kl_divergence sub s tp tq).1 =
      Except.error (PyExc.notImplementedError []) := by
  have hd : dispatch_kl sub s.registry tp tq = (none, none) := by
    simp [dispatch_kl, hempty]
  rcases hok with h | h
  · rw [kl_divergence_miss sub s tp tq h]
    simp [hd, resultOf]
  · rw [hd] at h
    rw [kl_divergence_hit sub s tp tq none h]
    simp [resultOf]

theorem C4_witness :
    (kl_divergence subT (⟨[((TTy.baseA, TTy.baseA), 7)], []⟩ : KLState TTy Nat)
        TTy.baseB TTy.baseB).1 =
      Except.error (PyExc.notImplementedError []) :=
  C4_unresolved_raises subT ⟨[((TTy.baseA, TTy.baseA), 7)], []⟩
    TTy.baseB TTy.baseB (Or.inl (by decide)) (by decide)

/-- C5: the registration-time validation is inoperative.  The guard
`not isinstance(t, type) and issubclass(t, Distribution)` short-circuits to
`False` for every class argument — including classes that are NOT
Distribution subclasses — so `register_kl` never raises its `TypeError` and
always inserts the rule (and clears the cache), contradicting its own error
message and docstring. -/
theorem C5_validation_inoperative {Ty H : Type} [DecidableEq Ty]
    (isDist : Ty → Bool) (type_p type_q : Ty) (fn : H) (s : KLState Ty H) :
    register_typecheck Ty true false = Except.ok false ∧
    register_kl isDist type_p type_q fn s =
      Except.ok ⟨dictInsert s.registry (type_p, type_q) fn, []⟩ :=
  ⟨rfl, rfl⟩

/-- C6: registering a handler maps the exact key to the new handler
(replacing any earlier one, keeping at most one handler per exact pair),
leaves every other key untouched, clears the whole memoization cache
unconditionally, and subsequent queries on that exact pair resolve to the
new handler. -/
theorem C6_registry_override {Ty H : Type} [DecidableEq Ty] [DecidableEq H]
    (isDist : Ty → Bool) (type_p type_q : Ty) (fn : H) (s s2 : KLState Ty H)
    (h : register_kl isDist type_p type_q fn s = Except.ok s2) :
    dictGet? s2.registry (type_p, type_q) = some fn ∧
    s2.memoize = [] ∧
    (∀ k : Ty × Ty, k ≠ (type_p, type_q) →
        dictGet? s2.registry k = dictGet? s.registry k) ∧
    ((s.registry.map Prod.fst).Nodup → (s2.registry.map Prod.fst).Nodup) ∧
    (∀ sub : Ty → Ty → Bool, (∀ t, sub t t = true) →
        (∀ a b, sub a b = true → sub b a = true → a = b) →
        (kl_divergence sub s2 type_p type_q).1 = Except.ok fn) := by
  rw [register_kl_eq] at h
  injection h with h2
  subst h2
  refine ⟨dictGet?_insert_self s.registry (type_p, type_q) fn, rfl, ?_, ?_, ?_⟩
  · intro k hk
    exact dictGet?_insert_ne s.registry (type_p, type_q) k fn hk
  · intro hnd
    exact keys_dictInsert_nodup s.registry (type_p, type_q) fn hnd
  · intro sub hrefl hanti
    have hdisp := dispatch_exact_helper sub hrefl hanti
        (dictInsert s.registry (type_p, type_q) fn) type_p type_q fn
        (dictGet?_insert_self s.registry (type_p, type_q) fn)
    rw [kl_divergence_miss sub ⟨dictInsert s.registry (type_p, type_q) fn, []⟩
        type_p type_q rfl]
    simp [hdisp, resultOf]

theorem C6_witness :
    dictGet? ([((TTy.baseA, TTy.baseA), 2)] : List ((TTy × TTy) × Nat))
        (TTy.baseA, TTy.baseA) = some 2 ∧
    (kl_divergence subT (⟨[((TTy.baseA, TTy.baseA), 2)], []⟩ : KLState TTy Nat)
        TTy.baseA TTy.baseA).1 = Except.ok 2 := by
  have h := C6_registry_override isDistT TTy.baseA TTy.baseA 2
      ⟨[((TTy.baseA, TTy.baseA), 1)], [((TTy.baseA, TTy.baseA), some 1)]⟩
      ⟨[((TTy.baseA, TTy.baseA), 2)], []⟩ rfl
  exact ⟨h.1, h.2.2.2.2 subT (by decide) (by decide)⟩

/-- C7: a query with zero candidates is memoized as an unresolved marker
under the exact pair; any later registration clears that marker, and
repeating the identical query after a matching rule was added succeeds with
the newly added handler instead of replaying the stale failure. -/
theorem C7_unresolved_then_register {Ty H : Type} [DecidableEq Ty]
    [DecidableEq H] (sub : Ty → Ty → Bool) (isDist : Ty → Bool)
    (s : KLState Ty H) (A B P Q : Ty) (fn : H)
    (hmiss : dictGet? s.memoize (A, B) = none)
    (hempty : candidates sub s.registry A B = [])
    (hAP : sub A P = true) (hBQ : sub B Q = true) :
    (kl_divergence sub s A B).1 =
      Except.error (PyExc.notImplementedError []) ∧
    dictGet? (kl_divergence sub s A B).2.2.memoize (A, B) = some none ∧
    (∀ s2 : KLState Ty H,
        register_kl isDist P Q fn (kl_divergence sub s A B).2.2 =
          Except.ok s2 →
        s2.memoize = [] ∧ (kl_divergence sub s2 A B).1 = Except.ok fn) := by
  have hd : dispatch_kl sub s.registry A B = (none, none) := by
    simp [dispatch_kl, hempty]
  have hkl : kl_divergence sub s A B =
      (Except.error (PyExc.notImplementedError []), none,
       ⟨s.registry, dictInsert s.memoize (A, B) none⟩) := by
    rw [kl_divergence_miss sub s A B hmiss, hd]
    rfl
  have hst : (kl_divergence sub s A B).2.2 =
      ⟨s.registry, dictInsert s.memoize (A, B) none⟩ := by
    rw [hkl]
  refine ⟨by rw [hkl], ?_, ?_⟩
  · rw [hst]
    exact dictGet?_insert_self s.memoize (A, B) none
  · intro s2 h2
    rw [hst, register_kl_eq] at h2
    injection h2 with h3
    subst h3
    have hfresh : (P, Q) ∉ s.registry.map Prod.fst := by
      intro hmem
      have hc : (P, Q) ∈ candidates sub s.registry A B :=
        List.mem_filter.mpr ⟨hmem, by simp [hAP, hBQ]⟩
      rw [hempty] at hc
      simp at hc
    have happ : dictInsert s.registry (P, Q) fn = s.registry ++ [((P, Q), fn)] :=
      dictInsert_of_not_mem s.registry (P, Q) fn hfresh
    have hcand2 : candidates sub (dictInsert s.registry (P, Q) fn) A B =
        [(P, Q)] := by
      rw [happ, candidates_append, hempty]
      simp [hAP, hBQ]
    have hget2 : dictGet? (dictInsert s.registry (P, Q) fn) (P, Q) = some fn :=
      dictGet?_insert_self s.registry (P, Q) fn
    have hdisp2 : dispatch_kl sub (dictInsert s.registry (P, Q) fn) A B =
        (some fn, none) := by
      simp [dispatch_kl, hcand2, pyMin, swapPair, hget2]
    refine ⟨rfl, ?_⟩
    rw [kl_divergence_miss sub ⟨dictInsert s.registry (P, Q) fn, []⟩ A B rfl]
    simp [hdisp2, resultOf]

theorem C7_witness :
    (kl_divergence subT (⟨[], []⟩ : KLState TTy Nat) TTy.derA TTy.baseB).1 =
      Except.error (PyExc.notImplementedError []) ∧
    dictGet? (kl_divergence subT (⟨[], []⟩ : KLState TTy Nat)
        TTy.derA TTy.baseB).2.2.memoize (TTy.derA, TTy.baseB) = some none ∧
    (kl_divergence subT (⟨[((TTy.baseA, TTy.baseB), 4)], []⟩ : KLState TTy Nat)
        TTy.derA TTy.baseB).1 = Except.ok 4 := by
  have h := C7_unresolved_then_register subT isDistT ⟨[], []⟩
      TTy.derA TTy.baseB TTy.baseA TTy.baseB 4
      (by decide) (by decide) (by decide) (by decide)
  exact ⟨h.1, h.2.1, (h.2.2 ⟨[((TTy.baseA, TTy.baseB), 4)], []⟩ rfl).2⟩

/-- C8: for a fixed registry state, dispatch is deterministic: the facade's
outcome equals what the resolver computes from the registry, whether served
from the cache or recomputed, and an immediately repeated call with the
same runtime types returns the same outcome. -/
theorem C8_deterministic {Ty H : Type} [DecidableEq Ty] [DecidableEq H]
    (sub : Ty → Ty → Bool) (s : KLState Ty H) (tp tq : Ty)
    (hok : MemoOkAt sub s tp tq) :
    (kl_divergence sub s tp tq).1 =
      resultOf Ty (dispatch_kl sub s.registry tp tq).1 ∧
    (kl_divergence sub (kl_divergence sub s tp tq).2.2 tp tq).1 =
      (kl_divergence sub s tp tq).1 := by
  rcases hok with h | h
  · have hkl := kl_divergence_miss sub s tp tq h
    have hst : (kl_divergence sub s tp tq).2.2 =
        ⟨s.registry,
         dictInsert s.memoize (tp, tq) (dispatch_kl sub s.registry tp tq).1⟩ := by
      rw [hkl]
    have hhit : dictGet? (kl_divergence sub s tp tq).2.2.memoize (tp, tq) =
        some (dispatch_kl sub s.registry tp tq).1 := by
      rw [hst]
      exact dictGet?_insert_self s.memoize (tp, tq) _
    refine ⟨by rw [hkl], ?_⟩
    rw [kl_divergence_hit sub (kl_divergence sub s tp tq).2.2 tp tq _ hhit]
    rw [hkl]
  · have hkl := kl_divergence_hit sub s tp tq _ h
    have hst : (kl_divergence sub s tp tq).2.2 = s := by
      rw [hkl]
    refine ⟨by rw [hkl], ?_⟩
    rw [hst]

theorem C8_witness :
    (kl_divergence subT (⟨[((TTy.baseA, TTy.baseA), 3)], []⟩ : KLState TTy Nat)
        TTy.derA TTy.baseA).1 =
      resultOf TTy
        ((dispatch_kl subT
            (⟨[((TTy.baseA, TTy.baseA), 3)], []⟩ : KLState TTy Nat).registry
            TTy.derA TTy.baseA).1) ∧
    (kl_divergence subT
        (kl_divergence subT
          (⟨[((TTy.baseA, TTy.baseA), 3)], []⟩ : KLState TTy Nat)
          TTy.derA TTy.baseA).2.2 TTy.derA TTy.baseA).1 =
      (kl_divergence subT
        (⟨[((TTy.baseA, TTy.baseA), 3)], []⟩ : KLState TTy Nat)
        TTy.derA TTy.baseA).1 :=
  C8_deterministic subT ⟨[((TTy.baseA, TTy.baseA), 3)], []⟩ TTy.derA TTy.baseA
    (Or.inl (by decide))

/-- C10: the facade never modifies the registry; the only state it may
change is the memo entry for the exact queried runtime pair, which it can
only set to the resolver's result, and every other memo entry is
unchanged. -/
theorem C10_no_registry_mutation {Ty H : Type} [DecidableEq Ty]
    [DecidableEq H] (sub : Ty → Ty → Bool) (s : KLState Ty H) (tp tq : Ty) :
    (kl_divergence sub s tp tq).2.2.registry = s.registry ∧
    (∀ k : Ty × Ty, k ≠ (tp, tq) →
        dictGet? (kl_divergence sub s tp tq).2.2.memoize k =
          dictGet? s.memoize k) ∧
    (dictGet? (kl_divergence sub s tp tq).2.2.memoize (tp, tq) =
        dictGet? s.memoize (tp, tq) ∨
     dictGet? (kl_divergence sub s tp tq).2.2.memoize (tp, tq) =
        some (dispatch_kl sub s.registry tp tq).1) := by
  cases h : dictGet? s.memoize (tp, tq) with
  | none =>
    have hkl := kl_divergence_miss sub s tp tq h
    have hst : (kl_divergence sub s tp tq).2.2 =
        ⟨s.registry,
         dictInsert s.memoize (tp, tq) (dispatch_kl sub s.registry tp tq).1⟩ := by
      rw [hkl]
    rw [hst]
    refine ⟨rfl, ?_, Or.inr ?_⟩
    · intro k hk
      exact dictGet?_insert_ne s.memoize (tp, tq) k _ hk
    · exact dictGet?_insert_self s.memoize (tp, tq) _
  | some fn =>
    have hkl := kl_divergence_hit sub s tp tq fn h
    have hst : (kl_divergence sub s tp tq).2.2 = s := by
      rw [hkl]
    rw [hst]
    exact ⟨rfl, fun k _ => rfl, Or.inl h⟩

theorem C10_witness :
    (kl_divergence subT
        (⟨[], [((TTy.baseA, TTy.baseA), some 9)]⟩ : KLState TTy Nat)
        TTy.baseA TTy.derA).2.2.registry = [] ∧
    dictGet? (kl_divergence subT
        (⟨[], [((TTy.baseA, TTy.baseA), some 9)]⟩ : KLState TTy Nat)
        TTy.baseA TTy.derA).2.2.memoize (TTy.baseA, TTy.baseA) =
      some (some 9) := by
  have h := C10_no_registry_mutation subT
      ⟨[], [((TTy.baseA, TTy.baseA), some 9)]⟩ TTy.baseA TTy.derA
  exact ⟨h.1, (h.2.1 (TTy.baseA, TTy.baseA) (by decide)).trans (by decide)⟩

end KL
